import Mathlib

/-!
Verification of the compound-search pipeline in `src/main.py`.

The pure core of the program (expression tokenization, name normalization,
equation detection, similarity ranking) is shallow-embedded below.  Python
strings are modelled as `String` / `List Char`; the character-class tests
(`str.strip`, `\s`, `\d`, `str.lower`) are modelled on their ASCII range,
which coincides with Python's behaviour on every character class the
program manipulates (ASCII letters and digits, arrows, sub/superscript
digits and bracket characters are unaffected by case mapping, and the
program's whitespace is ASCII).
-/

/-- Whitespace as stripped by Python's `str.strip()` / matched by `\s`
(ASCII range: space, tab, newline, carriage return, vertical tab, form feed). -/
def isSpace (c : Char) : Bool :=
  c == ' ' || c == '\t' || c == '\n' || c == '\r' || c == '\x0b' || c == '\x0c'

/-- `leadMatch pat l` holds when `pat` occurs at the very front of `l`. -/
def leadMatch : List Char → List Char → Bool
  | [], _ => true
  | _ :: _, [] => false
  | p :: ps, c :: cs => p == c && leadMatch ps cs

/-- Python's substring test `pat in l`. -/
def hasSub : List Char → List Char → Bool
  | [], pat => leadMatch pat []
  | c :: rest, pat => leadMatch pat (c :: rest) || hasSub rest pat

/-- Fuel-indexed worker for Python's `str.replace(pat, rep)`: scan left to
right, replace non-overlapping occurrences, continue after each replaced
occurrence.  The fuel is an upper bound on the length of the scanned list;
`pyReplace` below supplies an adequate amount.  (The `pat = []` guard is
irrelevant to the program: every pattern replaced there is nonempty.) -/
def replaceAux (pat rep : List Char) : Nat → List Char → List Char
  | 0, l => l
  | _ + 1, [] => []
  | fuel + 1, c :: rest =>
    if !pat.isEmpty && leadMatch pat (c :: rest) then
      rep ++ replaceAux pat rep fuel (rest.drop (pat.length - 1))
    else
      c :: replaceAux pat rep fuel rest

/-- Python's `str.replace(pat, rep)` on char lists. -/
def pyReplace (pat rep l : List Char) : List Char :=
  replaceAux pat rep l.length l

/-- Python's `str.split('|')` (main.py line 35). -/
def splitBar : List Char → List (List Char)
  | [] => [[]]
  | c :: rest =>
    if c = '|' then [] :: splitBar rest
    else
      match splitBar rest with
      | [] => [[c]]
      | s :: ss => (c :: s) :: ss

/-- `str.strip()` from the left. -/
def trimLeft (l : List Char) : List Char := l.dropWhile isSpace

/-- `str.strip()` from the right. -/
def trimRight (l : List Char) : List Char := (l.reverse.dropWhile isSpace).reverse

/-- Python's `str.strip()`. -/
def pyStrip (l : List Char) : List Char := trimRight (trimLeft l)

/-- The composed single-character substitution of
`normalize_compound_name` (main.py lines 62-73): the merged
subscript/superscript dictionary followed by the two dash replacements.
All of these replace one character by one character and their domains are
pairwise disjoint and disjoint from their ranges, so the sequential
`str.replace` calls amount to one character map. -/
def normChar (c : Char) : Char :=
  match c with
  | '₀' => '0' | '₁' => '1' | '₂' => '2' | '₃' => '3' | '₄' => '4'
  | '₅' => '5' | '₆' => '6' | '₇' => '7' | '₈' => '8' | '₉' => '9'
  | '⁰' => '0' | '¹' => '1' | '²' => '2' | '³' => '3' | '⁴' => '4'
  | '⁵' => '5' | '⁶' => '6' | '⁷' => '7' | '⁸' => '8' | '⁹' => '9'
  | '⁺' => '+' | '⁻' => '-'
  | '–' => '-' | '—' => '-'
  | other => other

/-- The pattern of the quotes-replacement on main.py line 74.  The line
reads `normalized.replace(''', "'").replace(''', "'")`; Python parses the
middle as a triple-quoted string, so the call actually replaces the
15-character substring `, "'").replace(` by a single apostrophe. -/
def quoteGlitchPat : List Char :=
  [',', ' ', '"', '\'', '"', ')', '.', 'r', 'e', 'p', 'l', 'a', 'c', 'e', '(']

/-- `normalize_compound_name` (main.py lines 56-76): empty guard, the
character substitutions, the (mangled) quote replacement, final strip. -/
def normalize_compound_name (name : String) : String :=
  if name = "" then ""
  else
    String.mk (pyStrip (pyReplace quoteGlitchPat ['\''] (name.data.map normChar)))

/-- Python's `str.lower()` as a character map (ASCII case mapping; every
character subject to `.lower()` in the program is ASCII or uncased). -/
def pyLower (s : String) : String := String.mk (s.data.map Char.toLower)

/-- The separator list of `extract_compounds_from_expression`
(main.py lines 19-26), in source order, duplicate `↔` included. -/
def separators : List String :=
  ["→", "⟶", "->", "⇒", "⇆", "⇌", "↔", "+", "＋", "⟷", "↔",
   "|", "/", "\\", ",", ";", "⟨", "⟩", "[", "]", "(", ")"]

/-- main.py lines 29-31: every separator is replaced by `'|'`, one
`str.replace` pass per separator, in list order. -/
def cleanedExpression (l : List Char) : List Char :=
  separators.foldl (fun acc sep => pyReplace sep.data ['|'] acc) l

/-- `re.sub(r'^\d+\s*', '', part)` (main.py line 39): if the segment starts
with an ASCII digit, drop the leading digit run and the following
whitespace run. -/
def stripCoeff (l : List Char) : List Char :=
  match l with
  | [] => []
  | c :: _ => if c.isDigit then (l.dropWhile Char.isDigit).dropWhile isSpace else l

/-- Worker for the phase-indicator regex: given the reversed segment with
its trailing whitespace removed, return the remainder after the matched
alternative `aq`/`s`/`l`/`g`, if the regex matches at all. -/
def phaseTail (r1 : List Char) : Option (List Char) :=
  if leadMatch ['q', 'a'] r1 then some (r1.drop 2)
  else
    match r1 with
    | 's' :: rest => some rest
    | 'l' :: rest => some rest
    | 'g' :: rest => some rest
    | _ => none

/-- `re.sub(r'\s*(aq|s|l|g)\s*$', '', part)` (main.py line 41).  The
pattern is anchored at the end, so at most one (leftmost) match exists:
trailing whitespace, preceded by one alternative of the group, preceded by
the whitespace run consumed by the leading `\s*` of the leftmost match. -/
def stripPhase (l : List Char) : List Char :=
  match phaseTail (l.reverse.dropWhile isSpace) with
  | some r2 => (r2.dropWhile isSpace).reverse
  | none => l

/-- The per-segment cleaning of main.py lines 38-42 applied after the
initial `part.strip()`: coefficient strip, phase strip, final strip. -/
def processPart (p1 : List Char) : List Char :=
  pyStrip (stripPhase (stripCoeff p1))

/-- The segment loop of main.py lines 34-44 building the `compounds`
list: strip, skip empties, clean, keep segments longer than one char. -/
def collectParts : List (List Char) → List (List Char)
  | [] => []
  | part :: rest =>
    if 0 < (pyStrip part).length then
      if 1 < (processPart (pyStrip part)).length then
        processPart (pyStrip part) :: collectParts rest
      else collectParts rest
    else collectParts rest

/-- The `compounds` list of `extract_compounds_from_expression` right
before deduplication (main.py lines 28-44). -/
def collectedCompounds (expression : String) : List String :=
  (collectParts (splitBar (cleanedExpression expression.data))).map String.mk

/-- The dedup loop of main.py lines 46-52: `seen` is the set of
already-seen lower-cased strings. -/
def dedupSeen : List String → List String → List String
  | _, [] => []
  | seen, comp :: rest =>
    if pyLower comp ∈ seen then dedupSeen seen rest
    else comp :: dedupSeen (pyLower comp :: seen) rest

/-- `extract_compounds_from_expression` (main.py lines 16-54). -/
def extract_compounds_from_expression (expression : String) : List String :=
  dedupSeen [] (collectedCompounds expression)

/-- The indicator list of `is_likely_equation` (main.py line 80). -/
def equation_indicators : List String :=
  ["→", "⟶", "->", "⇒", "⇆", "⇌", "↔", "+", "⟷"]

/-- `is_likely_equation` (main.py lines 78-81). -/
def is_likely_equation (text : String) : Bool :=
  equation_indicators.any (fun indicator => hasSub text.data indicator.data)

/-- How the search button routes the raw input (main.py lines 280-299). -/
inductive SearchRoute where
  | single (input : String)
  | multi (compounds : List String)
deriving DecidableEq

/-- The routing decision of the search handler (main.py lines 280-299):
equation-like inputs are tokenized, everything else is searched as one
compound. -/
def routeInput (input : String) : SearchRoute :=
  if is_likely_equation input then
    SearchRoute.multi (extract_compounds_from_expression input)
  else SearchRoute.single input

/-- A provider record as consumed by `fetch_data`: only the `comment`
value (the display name) is ever inspected by the core logic; the other
SPARQL fields are passed through opaquely. -/
structure MatchRecord where
  comment : String
deriving DecidableEq, Inhabited

/-- `normalize_compound_name(r["comment"]["value"]).lower()` (main.py
lines 194 and 199). -/
def normLowerName (r : MatchRecord) : String :=
  pyLower (normalize_compound_name r.comment)

/-- Fuel-indexed longest-common-subsequence length; the fuel is an upper
bound on the sum of lengths. -/
def lcsAux : Nat → List Char → List Char → Nat
  | 0, _, _ => 0
  | _ + 1, [], _ => 0
  | _ + 1, _ :: _, [] => 0
  | fuel + 1, a :: as, b :: bs =>
    if a = b then lcsAux fuel as bs + 1
    else max (lcsAux fuel as (b :: bs)) (lcsAux fuel (a :: as) bs)

/-- Longest-common-subsequence length of two char lists. -/
def lcsLen (a b : List Char) : Nat := lcsAux (a.length + b.length) a b

/-- `rapidfuzz.fuzz.ratio`: the normalized InDel similarity as a
percentage, `100 * (1 - dist/(|a|+|b|))` with `dist = |a|+|b| - 2*lcs`,
i.e. `200*lcs/(|a|+|b|)`; `100` when both strings are empty.  The library
returns this value as a double; it is embedded as the exact rational. -/
def fuzzRatio (a b : String) : ℚ :=
  if a.length + b.length = 0 then 100
  else (200 * (lcsLen a.data b.data : ℚ)) / ((a.length : ℚ) + (b.length : ℚ))

/-- The exact-match exclusion filter of `fetch_data` (main.py lines
191-195). -/
def eligibleCands (q : String) (cands : List MatchRecord) : List MatchRecord :=
  cands.filter (fun r => decide (normLowerName r ≠ pyLower (normalize_compound_name q)))

/-- The scoring loop of `fetch_data` (main.py lines 196-200). -/
def scoreCands (q : String) (cands : List MatchRecord) : List (ℚ × MatchRecord) :=
  cands.map (fun r => (fuzzRatio (normLowerName r) (pyLower (normalize_compound_name q)), r))

/-- Insertion step of a stable descending sort on the score component:
an element moves left past strictly smaller scores only. -/
def insertDesc (x : ℚ × MatchRecord) : List (ℚ × MatchRecord) → List (ℚ × MatchRecord)
  | [] => [x]
  | y :: ys => if y.1 ≤ x.1 then x :: y :: ys else y :: insertDesc x ys

/-- `scored_partials.sort(reverse=True, key=lambda x: x[0])` (main.py line
201).  Python's `list.sort` is stable also with `reverse=True`; a stable
sort's output is uniquely determined by the key order and the input order,
so stable insertion sort is an exact model. -/
def sortDesc : List (ℚ × MatchRecord) → List (ℚ × MatchRecord)
  | [] => []
  | x :: xs => insertDesc x (sortDesc xs)

/-- The pure ranking core of `fetch_data` (main.py lines 191-202), with
the provider's containment-match records supplied as input: exclude exact
matches, score, sort descending stably, truncate. -/
def rank_partials (q : String) (cands : List MatchRecord) (limit : Nat) :
    List (ℚ × MatchRecord) :=
  (sortDesc (scoreCands q (eligibleCands q cands))).take limit

/-! ### Basic facts about the string primitives -/

theorem leadMatch_iff {p l : List Char} : leadMatch p l = true ↔ p <+: l := by
  induction p generalizing l with
  | nil =>
    simp only [leadMatch]
    exact ⟨fun _ => ⟨l, rfl⟩, fun _ => trivial⟩
  | cons a as ih =>
    cases l with
    | nil =>
      simp only [leadMatch, List.prefix_nil]
      constructor
      · intro h; cases h
      · intro h; cases h
    | cons c cs =>
      simp only [leadMatch, Bool.and_eq_true, beq_iff_eq, ih, List.cons_prefix_cons]

theorem hasSub_iff {l pat : List Char} : hasSub l pat = true ↔ pat <:+: l := by
  induction l with
  | nil =>
    show leadMatch pat [] = true ↔ _
    rw [leadMatch_iff, List.prefix_nil, List.infix_nil]
  | cons c cs ih =>
    show (leadMatch pat (c :: cs) || hasSub cs pat) = true ↔ _
    rw [Bool.or_eq_true, leadMatch_iff, ih, List.infix_cons_iff]

theorem dropWhile_dropWhile {p : Char → Bool} (l : List Char) :
    (l.dropWhile p).dropWhile p = l.dropWhile p := by
  induction l with
  | nil => rfl
  | cons c cs ih =>
    by_cases h : p c
    · simp [List.dropWhile_cons, h, ih]
    · simp [List.dropWhile_cons, h]

theorem trimLeft_trimLeft (l : List Char) : trimLeft (trimLeft l) = trimLeft l :=
  dropWhile_dropWhile l

theorem trimRight_trimRight (l : List Char) : trimRight (trimRight l) = trimRight l := by
  unfold trimRight
  rw [List.reverse_reverse, dropWhile_dropWhile]

/-- `trimLeft` fixes a list iff it is empty or has a non-space head. -/
theorem trimLeft_fix_of_head {l : List Char} (h : trimLeft l = l) :
    ∀ c cs, l = c :: cs → isSpace c = false := by
  intro c cs hl
  subst hl
  unfold trimLeft at h
  have h0 := List.dropWhile_eq_self_iff.mp h (by simp)
  simpa using h0

theorem trimRight_isPre (l : List Char) : trimRight l <+: l := by
  have hsfx : l.reverse.dropWhile isSpace <:+ l.reverse := List.dropWhile_suffix _
  obtain ⟨s, hs⟩ := hsfx
  refine ⟨s.reverse, ?_⟩
  have := congrArg List.reverse hs
  rw [List.reverse_append, List.reverse_reverse] at this
  exact this

theorem trimLeft_of_trimRight {l : List Char} (h : trimLeft l = l) :
    trimLeft (trimRight l) = trimRight l := by
  rcases htr : trimRight l with _ | ⟨c, cs⟩
  · rfl
  · have hpre : trimRight l <+: l := trimRight_isPre l
    rw [htr] at hpre
    obtain ⟨t, ht⟩ := hpre
    have hc : isSpace c = false := trimLeft_fix_of_head h c (cs ++ t) (by rw [← ht]; simp)
    unfold trimLeft
    rw [List.dropWhile_cons, hc]
    simp

theorem pyStrip_pyStrip (l : List Char) : pyStrip (pyStrip l) = pyStrip l := by
  unfold pyStrip
  rw [trimLeft_of_trimRight (trimLeft_trimLeft l), trimRight_trimRight]

theorem pyStrip_isInf (l : List Char) : pyStrip l <:+: l := by
  unfold pyStrip trimLeft
  exact (trimRight_isPre _).isInfix.trans (List.dropWhile_suffix _).isInfix

theorem pyStrip_sub {l : List Char} {c : Char} (h : c ∈ pyStrip l) : c ∈ l :=
  (pyStrip_isInf l).sublist.subset h

/-! ### The character substitution of the normalizer -/

theorem normChar_cases (c : Char) :
    normChar c = c ∨
      normChar c ∈ ['0', '1', '2', '3', '4', '5', '6', '7', '8', '9', '+', '-'] := by
  unfold normChar
  split
  all_goals first
  | (left; rfl)
  | (right; decide)

theorem normChar_idem (c : Char) : normChar (normChar c) = normChar c := by
  rcases normChar_cases c with h | h
  · rw [h]; exact h
  · simp only [List.mem_cons, List.not_mem_nil, or_false] at h
    rcases h with h | h | h | h | h | h | h | h | h | h | h | h <;> rw [h] <;> decide

/-! ### The deduplication loop -/

theorem dedupSeen_sublist (seen l : List String) : List.Sublist (dedupSeen seen l) l := by
  induction l generalizing seen with
  | nil => simp [dedupSeen]
  | cons c rest ih =>
    unfold dedupSeen
    by_cases h : pyLower c ∈ seen
    · rw [if_pos h]
      exact (ih seen).trans (List.sublist_cons_self c rest)
    · rw [if_neg h]
      exact (ih _).cons₂ c

theorem dedupSeen_lower_not_seen {seen l : List String} {x : String}
    (hx : x ∈ dedupSeen seen l) : pyLower x ∉ seen := by
  induction l generalizing seen with
  | nil => simp [dedupSeen] at hx
  | cons c rest ih =>
    unfold dedupSeen at hx
    by_cases h : pyLower c ∈ seen
    · rw [if_pos h] at hx
      exact ih hx
    · rw [if_neg h] at hx
      rcases List.mem_cons.mp hx with rfl | hx'
      · exact h
      · intro hmem
        exact ih hx' (List.mem_cons_of_mem _ hmem)

theorem dedupSeen_pairwise (seen l : List String) :
    (dedupSeen seen l).Pairwise (fun a b => pyLower a ≠ pyLower b) := by
  induction l generalizing seen with
  | nil => simp [dedupSeen]
  | cons c rest ih =>
    unfold dedupSeen
    by_cases h : pyLower c ∈ seen
    · rw [if_pos h]
      exact ih seen
    · rw [if_neg h]
      refine List.pairwise_cons.mpr ⟨?_, ih _⟩
      intro b hb heq
      exact dedupSeen_lower_not_seen hb (heq ▸ List.mem_cons_self _ _)

theorem dedupSeen_find (seen l : List String) (key : String) (hkey : key ∉ seen) :
    (dedupSeen seen l).find? (fun t => pyLower t == key)
      = l.find? (fun t => pyLower t == key) := by
  induction l generalizing seen with
  | nil => simp [dedupSeen]
  | cons c rest ih =>
    unfold dedupSeen
    by_cases h : pyLower c ∈ seen
    · rw [if_pos h]
      have hne : ¬ (pyLower c == key) = true := by
        simp only [beq_iff_eq]
        intro heq
        exact hkey (heq ▸ h)
      rw [List.find?_cons_of_neg (p := fun t => pyLower t == key) rest hne, ih seen hkey]
    · rw [if_neg h]
      by_cases hc : (pyLower c == key) = true
      · rw [List.find?_cons_of_pos (p := fun t => pyLower t == key)
              (dedupSeen (pyLower c :: seen) rest) hc,
            List.find?_cons_of_pos (p := fun t => pyLower t == key) rest hc]
      · rw [List.find?_cons_of_neg (p := fun t => pyLower t == key)
              (dedupSeen (pyLower c :: seen) rest) hc,
            List.find?_cons_of_neg (p := fun t => pyLower t == key) rest hc]
        refine ih _ ?_
        intro hmem
        rcases List.mem_cons.mp hmem with heq | hmem'
        · exact hc (by rw [heq]; simp)
        · exact hkey hmem'

/-! ### Equation detection -/

theorem likely_iff (text : String) :
    is_likely_equation text = true ↔ ∃ ind ∈ equation_indicators, ind.data <:+: text.data := by
  unfold is_likely_equation
  rw [List.any_eq_true]
  constructor
  · rintro ⟨ind, hind, h⟩
    exact ⟨ind, hind, hasSub_iff.mp h⟩
  · rintro ⟨ind, hind, h⟩
    exact ⟨ind, hind, hasSub_iff.mpr h⟩

/-! ### Claim C8 -/

/-- C8: `is_likely_equation` returns true iff the raw text contains one of
the fixed indicator substrings (reaction/equilibrium arrows or the ASCII
plus sign). -/
theorem is_likely_equation_iff_indicator (text : String) :
    is_likely_equation text = true ↔ ∃ ind ∈ equation_indicators, ind.data <:+: text.data :=
  likely_iff text

/-! ### Claim C9 -/

/-- C9: an input containing the fullwidth plus sign `＋` but none of the
detector's indicator substrings is classified as a non-expression and
routed as a single compound, although `＋` is in the tokenizer's separator
set. -/
theorem fullwidth_plus_single_route (t : String)
    (_hplus : '＋' ∈ t.data)
    (hind : ∀ ind ∈ equation_indicators, ¬ (ind.data <:+: t.data)) :
    is_likely_equation t = false ∧ routeInput t = SearchRoute.single t ∧
      ("＋" : String) ∈ separators := by
  have hfalse : is_likely_equation t = false := by
    cases h : is_likely_equation t
    · rfl
    · obtain ⟨ind, hmem, hin⟩ := (likely_iff t).mp h
      exact absurd hin (hind ind hmem)
  refine ⟨hfalse, ?_, by decide⟩
  unfold routeInput
  rw [hfalse]
  simp

/-- Witness for C9 at the concrete input `A＋B`. -/
theorem fullwidth_plus_single_route_witness :
    ('＋' ∈ ("A＋B" : String).data) ∧
      (∀ ind ∈ equation_indicators, ¬ (ind.data <:+: ("A＋B" : String).data)) ∧
      (is_likely_equation ("A＋B") = false ∧
        routeInput ("A＋B") = SearchRoute.single ("A＋B") ∧
        ("＋" : String) ∈ separators) :=
  ⟨by decide, by decide, fullwidth_plus_single_route ("A＋B") (by decide) (by decide)⟩

/-! ### Claim C1 -/

/-- C1 (code bug): on the input `NaCl(aq)` the tokenizer returns `["NaC"]`,
not `["NaCl"]`: the phase regex `\s*(aq|s|l|g)\s*$` has no word boundary,
so it deletes the bare trailing letter `l` of `NaCl`. -/
theorem extract_NaCl_aq_eval :
    extract_compounds_from_expression ("NaCl(aq)") = (["NaC"] : List String) := by decide

/-! ### Claim C4 -/

/-- C4: on `2 H2O + CO2 -> H2CO3` the tokenizer strips the leading
stoichiometric coefficient and the `+`/`->` separators and returns the
compounds in extraction order. -/
theorem extract_scenario_coeff_arrow :
    extract_compounds_from_expression ("2 H2O + CO2 -> H2CO3")
      = (["H2O", "CO2", "H2CO3"] : List String) := by decide

/-! ### Claim C3 -/

/-- C3 (code bug): `normalize_compound_name` is not idempotent.  The
mangled quote replacement of main.py line 74 deletes the substring
`, "'").replace(` and can thereby create a fresh occurrence of the same
substring, which a second application deletes as well. -/
theorem normalize_quote_glitch_eval :
    normalize_compound_name (", \", \"'\").replace(\").replace(")
        = (", \"'\").replace(" : String) ∧
      normalize_compound_name
          (normalize_compound_name (", \", \"'\").replace(\").replace("))
        = ("'" : String) ∧
      normalize_compound_name
          (normalize_compound_name (", \", \"'\").replace(\").replace("))
        ≠ normalize_compound_name (", \", \"'\").replace(\").replace(") :=
  ⟨by decide, by decide, by decide⟩

/-! ### Claim C2 -/

/-- C2 counterexample: the dedup loop compares raw lower-cased segments,
not normalized ones.  In `H₂O + H2O` both segments normalize to the same
lower-cased form `h2o`, yet the returned list contains both spellings. -/
theorem extract_dedup_normalized_cex :
    extract_compounds_from_expression ("H₂O + H2O") = (["H₂O", "H2O"] : List String) ∧
      pyLower (normalize_compound_name ("H₂O")) = pyLower (normalize_compound_name ("H2O")) ∧
      (extract_compounds_from_expression ("H₂O + H2O")).countP
          (fun t => pyLower (normalize_compound_name t)
            == pyLower (normalize_compound_name ("H₂O"))) = 2 :=
  ⟨by decide, by decide, by decide⟩

/-- C2 as amended: deduplication is keyed on the raw lower-cased segment
text.  Each raw lower-class occurs at most once, the survivor of each
class is its first occurrence, and the output preserves extraction
order. -/
theorem extract_dedup_raw_lower (e : String) :
    (∀ key : String, (extract_compounds_from_expression e).find? (fun t => pyLower t == key)
        = (collectedCompounds e).find? (fun t => pyLower t == key)) ∧
      (extract_compounds_from_expression e).Pairwise (fun a b => pyLower a ≠ pyLower b) ∧
      List.Sublist (extract_compounds_from_expression e) (collectedCompounds e) :=
  ⟨fun key => dedupSeen_find [] _ key (by simp), dedupSeen_pairwise [] _, dedupSeen_sublist [] _⟩

/-! ### The stable descending sort of the ranker -/

theorem mem_insertDesc {x y : ℚ × MatchRecord} {L : List (ℚ × MatchRecord)} :
    y ∈ insertDesc x L ↔ y = x ∨ y ∈ L := by
  induction L with
  | nil => simp [insertDesc]
  | cons z zs ih =>
    unfold insertDesc
    by_cases h : z.1 ≤ x.1
    · rw [if_pos h]
      simp only [List.mem_cons]
    · rw [if_neg h]
      simp only [List.mem_cons, ih]
      tauto

theorem length_insertDesc (x : ℚ × MatchRecord) (L : List (ℚ × MatchRecord)) :
    (insertDesc x L).length = L.length + 1 := by
  induction L with
  | nil => rfl
  | cons z zs ih =>
    unfold insertDesc
    by_cases h : z.1 ≤ x.1
    · rw [if_pos h]
      rfl
    · rw [if_neg h]
      simp [ih]

theorem length_sortDesc (L : List (ℚ × MatchRecord)) : (sortDesc L).length = L.length := by
  induction L with
  | nil => rfl
  | cons x xs ih =>
    show (insertDesc x (sortDesc xs)).length = _
    rw [length_insertDesc, ih]
    simp

theorem mem_sortDesc {y : ℚ × MatchRecord} {L : List (ℚ × MatchRecord)} :
    y ∈ sortDesc L ↔ y ∈ L := by
  induction L with
  | nil => exact Iff.rfl
  | cons x xs ih =>
    show y ∈ insertDesc x (sortDesc xs) ↔ _
    rw [mem_insertDesc, ih]
    simp [List.mem_cons, eq_comm]

theorem pairwise_insertDesc {x : ℚ × MatchRecord} {L : List (ℚ × MatchRecord)}
    (hL : L.Pairwise (fun a b => b.1 ≤ a.1)) :
    (insertDesc x L).Pairwise (fun a b => b.1 ≤ a.1) := by
  induction L with
  | nil => simp [insertDesc]
  | cons z zs ih =>
    rcases List.pairwise_cons.mp hL with ⟨hz, hzs⟩
    unfold insertDesc
    by_cases h : z.1 ≤ x.1
    · rw [if_pos h]
      refine List.pairwise_cons.mpr ⟨?_, hL⟩
      intro b hb
      rcases List.mem_cons.mp hb with rfl | hb'
      · exact h
      · exact le_trans (hz b hb') h
    · rw [if_neg h]
      refine List.pairwise_cons.mpr ⟨?_, ih hzs⟩
      intro b hb
      rcases mem_insertDesc.mp hb with rfl | hb'
      · exact le_of_not_le h
      · exact hz b hb'

theorem sortDesc_pairwise (L : List (ℚ × MatchRecord)) :
    (sortDesc L).Pairwise (fun a b => b.1 ≤ a.1) := by
  induction L with
  | nil => simp [sortDesc]
  | cons x xs ih =>
    exact pairwise_insertDesc ih

theorem filter_insertDesc (x : ℚ × MatchRecord) (L : List (ℚ × MatchRecord)) (s : ℚ) :
    (insertDesc x L).filter (fun p => decide (p.1 = s))
      = if x.1 = s then x :: L.filter (fun p => decide (p.1 = s))
        else L.filter (fun p => decide (p.1 = s)) := by
  induction L with
  | nil =>
    by_cases hx : x.1 = s <;> simp [insertDesc, hx]
  | cons z zs ih =>
    unfold insertDesc
    by_cases h : z.1 ≤ x.1
    · rw [if_pos h]
      by_cases hx : x.1 = s <;> simp [List.filter_cons, hx]
    · rw [if_neg h]
      by_cases hx : x.1 = s <;> by_cases hz : z.1 = s
      · exact absurd (hx ▸ hz ▸ le_refl s) h
      · simp [List.filter_cons, hx, hz, ih]
      · simp [List.filter_cons, hx, hz, ih]
      · simp [List.filter_cons, hx, hz, ih]

theorem filter_sortDesc (L : List (ℚ × MatchRecord)) (s : ℚ) :
    (sortDesc L).filter (fun p => decide (p.1 = s)) = L.filter (fun p => decide (p.1 = s)) := by
  induction L with
  | nil => rfl
  | cons x xs ih =>
    show (insertDesc x (sortDesc xs)).filter _ = _
    rw [filter_insertDesc]
    by_cases hx : x.1 = s <;> simp [List.filter_cons, hx, ih]

theorem filter_of_isPre {l₁ l₂ : List (ℚ × MatchRecord)} {p : ℚ × MatchRecord → Bool}
    (h : l₁ <+: l₂) : l₁.filter p <+: l₂.filter p := by
  obtain ⟨t, rfl⟩ := h
  rw [List.filter_append]
  exact ⟨_, rfl⟩

/-! ### Claim C5 -/

/-- C5: the ranked list has length `min limit (#eligible candidates)`,
where a candidate is eligible iff its normalized lower-cased display name
differs from the normalized lower-cased query. -/
theorem rank_length_eq_min (q : String) (cands : List MatchRecord) (limit : Nat)
    (_h : 1 ≤ limit) :
    (rank_partials q cands limit).length = min limit (eligibleCands q cands).length := by
  unfold rank_partials
  rw [List.length_take, length_sortDesc]
  unfold scoreCands
  rw [List.length_map]

/-- Witness for C5 with limit 1 and one eligible candidate. -/
theorem rank_length_eq_min_witness :
    1 ≤ 1 ∧ (rank_partials ("ab") [⟨"abc"⟩, ⟨"ab"⟩] 1).length
      = min 1 (eligibleCands ("ab") [⟨"abc"⟩, ⟨"ab"⟩]).length :=
  ⟨by decide, rank_length_eq_min ("ab") [⟨"abc"⟩, ⟨"ab"⟩] 1 (by decide)⟩

/-! ### Claim C6 -/

/-- C6: the ranked list is sorted by descending score, and for every score
value the candidates carrying that score appear in the same relative order
as in the scored input sequence (stability of the sort, preserved by the
truncation as a prefix relation). -/
theorem rank_sorted_descending_stable (q : String) (cands : List MatchRecord)
    (limit : Nat) (s : ℚ) :
    (rank_partials q cands limit).Pairwise (fun a b => b.1 ≤ a.1) ∧
      (rank_partials q cands limit).filter (fun p => decide (p.1 = s)) <+:
        (scoreCands q (eligibleCands q cands)).filter (fun p => decide (p.1 = s)) := by
  constructor
  · exact List.Pairwise.sublist (List.take_sublist _ _) (sortDesc_pairwise _)
  · have hstab := filter_sortDesc (scoreCands q (eligibleCands q cands)) s
    rw [← hstab]
    exact filter_of_isPre ⟨_, List.take_append_drop _ _⟩

/-! ### Claim C7 -/

/-- C7: the ranked list never contains a candidate whose normalized,
lower-cased display name equals the normalized, lower-cased query; such
candidates are filtered out before scoring. -/
theorem rank_excludes_exact (q : String) (cands : List MatchRecord) (limit : Nat)
    (p : ℚ × MatchRecord) (hp : p ∈ rank_partials q cands limit) :
    normLowerName p.2 ≠ pyLower (normalize_compound_name q) := by
  have h1 : p ∈ sortDesc (scoreCands q (eligibleCands q cands)) :=
    List.take_subset _ _ hp
  have h2 : p ∈ scoreCands q (eligibleCands q cands) := mem_sortDesc.mp h1
  obtain ⟨r, hr, hpr⟩ := List.mem_map.mp h2
  have hfilt := (List.mem_filter.mp hr).2
  rw [← hpr]
  simpa using hfilt

/-- Witness for C7: the head of a nonempty ranked list. -/
theorem rank_excludes_exact_witness :
    (rank_partials ("ab") [⟨"abc"⟩] 5).head! ∈ rank_partials ("ab") [⟨"abc"⟩] 5 ∧
      normLowerName ((rank_partials ("ab") [⟨"abc"⟩] 5).head!).2
        ≠ pyLower (normalize_compound_name ("ab")) :=
  ⟨List.head!_mem_self (by decide),
   rank_excludes_exact ("ab") [⟨"abc"⟩] 5 _ (List.head!_mem_self (by decide))⟩

/-! ### Character-level facts about the separator replacement -/

theorem mem_replaceAux {pat rep : List Char} {fuel : Nat} : ∀ {l : List Char} {x : Char},
    x ∈ replaceAux pat rep fuel l → x ∈ l ∨ x ∈ rep := by
  induction fuel with
  | zero => exact fun hx => Or.inl hx
  | succ fuel ih =>
    intro l x hx
    cases l with
    | nil => simp [replaceAux] at hx
    | cons c rest =>
      unfold replaceAux at hx
      split at hx
      · rcases List.mem_append.mp hx with hrep | hrec
        · exact Or.inr hrep
        · rcases ih hrec with hin | hrep
          · exact Or.inl (List.mem_cons_of_mem c (List.drop_subset _ _ hin))
          · exact Or.inr hrep
      · rcases List.mem_cons.mp hx with rfl | hrec
        · exact Or.inl (List.mem_cons_self _ _)
        · rcases ih hrec with hin | hrep
          · exact Or.inl (List.mem_cons_of_mem c hin)
          · exact Or.inr hrep

theorem replaceAux_single_elim {c : Char} (hc : c ≠ '|') {fuel : Nat} : ∀ {l : List Char},
    l.length ≤ fuel → c ∉ replaceAux [c] ['|'] fuel l := by
  induction fuel with
  | zero =>
    intro l hfuel
    have hl : l = [] := List.length_eq_zero.mp (Nat.le_zero.mp hfuel)
    subst hl
    simp [replaceAux]
  | succ fuel ih =>
    intro l hfuel
    cases l with
    | nil => simp [replaceAux]
    | cons d rest =>
      unfold replaceAux
      split
      · intro hmem
        rcases List.mem_append.mp hmem with h1 | h1
        · simp at h1
          exact hc h1
        · have hrest : (rest.drop (([c] : List Char).length - 1)).length ≤ fuel := by
            simp at hfuel ⊢
            omega
          exact ih hrest h1
      · intro hmem
        rename_i hcond
        rcases List.mem_cons.mp hmem with heq | h1
        · apply hcond
          simp [leadMatch, heq]
        · have hrest : rest.length ≤ fuel := by
            simp at hfuel
            omega
          exact ih hrest h1

theorem foldl_repl_keep {c : Char} (hc : c ≠ '|') :
    ∀ (seps : List String) (l : List Char), c ∉ l →
      c ∉ seps.foldl (fun acc sep => pyReplace sep.data ['|'] acc) l := by
  intro seps
  induction seps with
  | nil => exact fun l hl => hl
  | cons sp rest ih =>
    intro l hl
    show c ∉ rest.foldl _ (pyReplace sp.data ['|'] l)
    apply ih
    intro hmem
    rcases mem_replaceAux hmem with h1 | h1
    · exact hl h1
    · simp at h1
      exact hc h1

theorem foldl_repl_elim {c : Char} (hc : c ≠ '|') :
    ∀ (seps : List String) (l : List Char),
      ((∃ sp ∈ seps, sp.data = [c]) ∨ c ∉ l) →
      c ∉ seps.foldl (fun acc sep => pyReplace sep.data ['|'] acc) l := by
  intro seps
  induction seps with
  | nil =>
    rintro l (⟨sp, hsp, _⟩ | h)
    · simp at hsp
    · exact h
  | cons sp rest ih =>
    intro l h
    show c ∉ rest.foldl _ (pyReplace sp.data ['|'] l)
    by_cases hsp : sp.data = [c]
    · apply ih
      right
      rw [hsp]
      exact replaceAux_single_elim hc (le_refl _)
    · rcases h with ⟨sp', hsp', hdata⟩ | hl
      · rcases List.mem_cons.mp hsp' with rfl | hmem
        · exact absurd hdata hsp
        · exact ih _ (Or.inl ⟨sp', hmem, hdata⟩)
      · apply ih
        right
        intro hmem
        rcases mem_replaceAux hmem with h1 | h1
        · exact hl h1
        · simp at h1
          exact hc h1

/-! ### The two-character separator `->` -/

theorem pair_sub_cons {a b c : Char} {l : List Char} :
    [a, b] <:+: c :: l ↔ (c = a ∧ ∃ t, l = b :: t) ∨ [a, b] <:+: l := by
  constructor
  · rintro ⟨s, t, hst⟩
    cases s with
    | nil =>
      simp only [List.nil_append, List.cons_append] at hst
      obtain ⟨h1, h2⟩ := List.cons.inj hst
      exact Or.inl ⟨h1.symm, t, h2.symm⟩
    | cons d s' =>
      simp only [List.cons_append] at hst
      obtain ⟨h1, h2⟩ := List.cons.inj hst
      exact Or.inr ⟨s', t, h2⟩
  · rintro (⟨rfl, t, rfl⟩ | h)
    · exact ⟨[], t, rfl⟩
    · exact List.infix_cons h

theorem singleton_sub_mem {c : Char} {l : List Char} (h : [c] <:+: l) : c ∈ l := by
  obtain ⟨s, t, rfl⟩ := h
  simp

theorem head_replaceAux {pat : List Char} {fuel : Nat} {l : List Char} {b : Char}
    {t : List Char} (h : replaceAux pat ['|'] fuel l = b :: t) :
    b = '|' ∨ ∃ t', l = b :: t' := by
  cases fuel with
  | zero => exact Or.inr ⟨t, h⟩
  | succ fuel =>
    cases l with
    | nil => simp [replaceAux] at h
    | cons c rest =>
      unfold replaceAux at h
      split at h
      · obtain ⟨h1, _⟩ := List.cons.inj h
        exact Or.inl h1.symm
      · obtain ⟨h1, _⟩ := List.cons.inj h
        exact Or.inr ⟨rest, by rw [h1]⟩

theorem replaceAux_pair_preserve {a b : Char} (ha : a ≠ '|') (hb : b ≠ '|')
    {pat : List Char} {fuel : Nat} : ∀ {l : List Char},
    ¬ ([a, b] <:+: l) → ¬ ([a, b] <:+: replaceAux pat ['|'] fuel l) := by
  induction fuel with
  | zero => exact fun h => h
  | succ fuel ih =>
    intro l h
    cases l with
    | nil =>
      show ¬ ([a, b] <:+: ([] : List Char))
      simp [List.infix_nil]
    | cons c rest =>
      unfold replaceAux
      split
      · intro hinf
        rw [show (['|'] ++ replaceAux pat ['|'] fuel (rest.drop (pat.length - 1)))
              = '|' :: replaceAux pat ['|'] fuel (rest.drop (pat.length - 1)) from rfl] at hinf
        rcases pair_sub_cons.mp hinf with ⟨hcb, _⟩ | hrec
        · exact ha hcb.symm
        · refine ih ?_ hrec
          intro hd
          exact h (hd.trans ((List.drop_suffix _ _).isInfix.trans
            (List.suffix_cons c rest).isInfix))
      · intro hinf
        rcases pair_sub_cons.mp hinf with ⟨rfl, t, hX⟩ | hrec
        · rcases head_replaceAux hX with h1 | ⟨t', ht'⟩
          · exact hb h1
          · exact h ⟨[], t', by rw [ht']; rfl⟩
        · exact ih (fun hd => h (List.infix_cons hd)) hrec

theorem replaceAux_arrow_elim {fuel : Nat} : ∀ {l : List Char},
    l.length ≤ fuel → ¬ (['-', '>'] <:+: replaceAux ['-', '>'] ['|'] fuel l) := by
  induction fuel with
  | zero =>
    intro l hfuel
    have hl : l = [] := List.length_eq_zero.mp (Nat.le_zero.mp hfuel)
    subst hl
    simp [replaceAux, List.infix_nil]
  | succ fuel ih =>
    intro l hfuel
    cases l with
    | nil =>
      show ¬ ([_, _] <:+: ([] : List Char))
      simp [List.infix_nil]
    | cons c rest =>
      unfold replaceAux
      split
      · intro hinf
        rw [show (['|'] ++ replaceAux ['-', '>'] ['|'] fuel
              (rest.drop ((['-', '>'] : List Char).length - 1)))
              = '|' :: replaceAux ['-', '>'] ['|'] fuel
                  (rest.drop ((['-', '>'] : List Char).length - 1)) from rfl] at hinf
        rcases pair_sub_cons.mp hinf with ⟨hcb, _⟩ | hrec
        · exact absurd hcb (by decide)
        · refine ih ?_ hrec
          simp at hfuel ⊢
          omega
      · intro hinf
        rename_i hcond
        rcases pair_sub_cons.mp hinf with ⟨rfl, t, hX⟩ | hrec
        · rcases head_replaceAux hX with h1 | ⟨t', ht'⟩
          · exact absurd h1 (by decide)
          · apply hcond
            rw [ht']
            simp [leadMatch]
        · refine ih ?_ hrec
          simp at hfuel
          omega

theorem foldl_arrow :
    ∀ (seps : List String) (l : List Char),
      ((∃ sp ∈ seps, sp.data = ['-', '>']) ∨ ¬ (['-', '>'] <:+: l)) →
      ¬ (['-', '>'] <:+: seps.foldl (fun acc sep => pyReplace sep.data ['|'] acc) l) := by
  intro seps
  induction seps with
  | nil =>
    rintro l (⟨sp, hsp, _⟩ | h)
    · simp at hsp
    · exact h
  | cons sp rest ih =>
    intro l h
    show ¬ (_ <:+: rest.foldl _ (pyReplace sp.data ['|'] l))
    by_cases hsp : sp.data = ['-', '>']
    · apply ih
      right
      rw [hsp]
      exact replaceAux_arrow_elim (le_refl _)
    · rcases h with ⟨sp', hsp', hdata⟩ | hl
      · rcases List.mem_cons.mp hsp' with rfl | hmem
        · exact absurd hdata hsp
        · exact ih _ (Or.inl ⟨sp', hmem, hdata⟩)
      · exact ih _ (Or.inr (replaceAux_pair_preserve (by decide) (by decide) hl))

/-! ### Facts about the split and the per-segment cleaning -/

theorem splitBar_first_isPre : ∀ {l s : List Char} {ss : List (List Char)},
    splitBar l = s :: ss → s <+: l := by
  intro l
  induction l with
  | nil =>
    intro s ss h
    obtain ⟨h1, _⟩ := List.cons.inj h.symm
    exact ⟨[], by rw [h1]; rfl⟩
  | cons c rest ih =>
    intro s ss h
    unfold splitBar at h
    by_cases hc : c = '|'
    · rw [if_pos hc] at h
      obtain ⟨h1, _⟩ := List.cons.inj h.symm
      exact ⟨c :: rest, by rw [h1]; rfl⟩
    · rw [if_neg hc] at h
      rcases hsp : splitBar rest with _ | ⟨s', ss'⟩
      · rw [hsp] at h
        obtain ⟨h1, _⟩ := List.cons.inj h.symm
        exact ⟨rest, by rw [h1]; rfl⟩
      · rw [hsp] at h
        obtain ⟨h1, _⟩ := List.cons.inj h.symm
        obtain ⟨t, ht⟩ := ih hsp
        exact ⟨t, by rw [h1, List.cons_append, ht]⟩

theorem splitBar_mem : ∀ {l : List Char} {seg : List Char}, seg ∈ splitBar l →
    '|' ∉ seg ∧ seg <:+: l := by
  intro l
  induction l with
  | nil =>
    intro seg hseg
    simp only [splitBar, List.mem_singleton] at hseg
    subst hseg
    exact ⟨by simp, ⟨[], [], rfl⟩⟩
  | cons c rest ih =>
    intro seg hseg
    unfold splitBar at hseg
    by_cases hc : c = '|'
    · rw [if_pos hc] at hseg
      rcases List.mem_cons.mp hseg with rfl | h
      · exact ⟨by simp, ⟨[], c :: rest, rfl⟩⟩
      · obtain ⟨h1, h2⟩ := ih h
        exact ⟨h1, List.infix_cons h2⟩
    · rw [if_neg hc] at hseg
      rcases hsp : splitBar rest with _ | ⟨s', ss'⟩
      · rw [hsp] at hseg
        simp only [List.mem_singleton] at hseg
        subst hseg
        refine ⟨?_, ⟨[], rest, rfl⟩⟩
        intro hmem
        simp only [List.mem_singleton] at hmem
        exact hc hmem.symm
      · rw [hsp] at hseg
        rcases List.mem_cons.mp hseg with rfl | h
        · have hpre : s' <+: rest := splitBar_first_isPre hsp
          have hhead := ih (by rw [hsp]; exact List.mem_cons_self _ _)
          constructor
          · intro hmem
            rcases List.mem_cons.mp hmem with h2 | h2
            · exact hc h2.symm
            · exact hhead.1 h2
          · obtain ⟨t, ht⟩ := hpre
            exact ⟨[], t, by rw [List.nil_append, List.cons_append, ht]⟩
        · obtain ⟨h1, h2⟩ := ih (by rw [hsp]; exact List.mem_cons_of_mem _ h)
          exact ⟨h1, List.infix_cons h2⟩

theorem stripCoeff_sfx (l : List Char) : stripCoeff l <:+ l := by
  cases l with
  | nil => exact ⟨[], rfl⟩
  | cons c rest =>
    show (if c.isDigit then ((c :: rest).dropWhile Char.isDigit).dropWhile isSpace
      else c :: rest) <:+ c :: rest
    by_cases h : c.isDigit
    · rw [if_pos h]
      exact (List.dropWhile_suffix _).trans (List.dropWhile_suffix _)
    · rw [if_neg h]

theorem suffix_rev_isPre {l₁ l₂ : List Char} (h : l₁ <:+ l₂) : l₁.reverse <+: l₂.reverse := by
  obtain ⟨s, rfl⟩ := h
  exact ⟨s.reverse, by rw [← List.reverse_append]⟩

theorem phaseTail_sfx {r1 r2 : List Char} (h : phaseTail r1 = some r2) : r2 <:+ r1 := by
  unfold phaseTail at h
  split at h
  · obtain h' := Option.some.inj h
    exact h' ▸ List.drop_suffix 2 r1
  · split at h
    · obtain h' := Option.some.inj h
      exact h' ▸ List.suffix_cons _ _
    · obtain h' := Option.some.inj h
      exact h' ▸ List.suffix_cons _ _
    · obtain h' := Option.some.inj h
      exact h' ▸ List.suffix_cons _ _
    · cases h

theorem stripPhase_isPre (l : List Char) : stripPhase l <+: l := by
  unfold stripPhase
  rcases hpt : phaseTail (l.reverse.dropWhile isSpace) with _ | r2
  · exact ⟨[], List.append_nil l⟩
  · have h2 : r2 <:+ l.reverse.dropWhile isSpace := phaseTail_sfx hpt
    have h3 : r2.dropWhile isSpace <:+ l.reverse :=
      ((List.dropWhile_suffix _).trans h2).trans (List.dropWhile_suffix _)
    have h4 := suffix_rev_isPre h3
    rw [List.reverse_reverse] at h4
    exact h4

theorem processPart_isInf (p : List Char) : processPart p <:+: p :=
  (pyStrip_isInf _).trans ((stripPhase_isPre _).isInfix.trans (stripCoeff_sfx _).isInfix)

theorem collectParts_mem : ∀ {parts : List (List Char)} {x : List Char},
    x ∈ collectParts parts → ∃ p ∈ parts, x = processPart (pyStrip p) ∧ 1 < x.length := by
  intro parts
  induction parts with
  | nil =>
    intro x hx
    simp [collectParts] at hx
  | cons part rest ih =>
    intro x hx
    unfold collectParts at hx
    by_cases h1 : 0 < (pyStrip part).length
    · rw [if_pos h1] at hx
      by_cases h4 : 1 < (processPart (pyStrip part)).length
      · rw [if_pos h4] at hx
        rcases List.mem_cons.mp hx with rfl | hx'
        · exact ⟨part, List.mem_cons_self _ _, rfl, h4⟩
        · obtain ⟨p, hp, hxp, hlen⟩ := ih hx'
          exact ⟨p, List.mem_cons_of_mem _ hp, hxp, hlen⟩
      · rw [if_neg h4] at hx
        obtain ⟨p, hp, hxp, hlen⟩ := ih hx
        exact ⟨p, List.mem_cons_of_mem _ hp, hxp, hlen⟩
    · rw [if_neg h1] at hx
      obtain ⟨p, hp, hxp, hlen⟩ := ih hx
      exact ⟨p, List.mem_cons_of_mem _ hp, hxp, hlen⟩

/-! ### Claim C10 -/

/-- C10: every token returned by the tokenizer carries no leading or
trailing whitespace (it is a fixed point of `str.strip()`), and no
separator — single-character or the two-character arrow `->` — occurs in
it as a substring. -/
theorem extracted_tokens_clean (e : String) (tok : String)
    (htok : tok ∈ extract_compounds_from_expression e) :
    pyStrip tok.data = tok.data ∧ ∀ sep ∈ separators, ¬ (sep.data <:+: tok.data) := by
  have h1 : tok ∈ collectedCompounds e := (dedupSeen_sublist [] _).subset htok
  obtain ⟨d, hd, rfl⟩ := List.mem_map.mp h1
  obtain ⟨p, hp, hdp, _⟩ := collectParts_mem hd
  obtain ⟨hbar, hpinf⟩ := splitBar_mem hp
  have hdata : (String.mk d).data = d := rfl
  rw [hdata]
  have hinfp : d <:+: p := by
    rw [hdp]
    exact (processPart_isInf _).trans (pyStrip_isInf p)
  have hinf : d <:+: cleanedExpression e.data := hinfp.trans hpinf
  constructor
  · rw [hdp]
    unfold processPart
    exact pyStrip_pyStrip _
  · intro sep hsep
    have hcl : sep = "->" ∨ sep = "|" ∨ (∃ c, sep.data = [c] ∧ c ≠ '|') := by
      fin_cases hsep
      all_goals first
      | (left; rfl)
      | (right; left; rfl)
      | (right; right; exact ⟨_, rfl, by decide⟩)
    rcases hcl with rfl | rfl | ⟨c, hc, hcne⟩
    · intro harr
      have harr' : ['-', '>'] <:+: cleanedExpression e.data := by
        have hdd : ("->" : String).data = ['-', '>'] := rfl
        exact (hdd ▸ harr).trans hinf
      exact foldl_arrow separators e.data (Or.inl ⟨"->", by decide, rfl⟩) harr'
    · intro hbarinf
      have hmem : '|' ∈ d := singleton_sub_mem hbarinf
      exact hbar (hinfp.sublist.subset hmem)
    · intro hcinf
      rw [hc] at hcinf
      have hmem : c ∈ d := singleton_sub_mem hcinf
      have hmemc : c ∈ cleanedExpression e.data := hinf.sublist.subset hmem
      exact foldl_repl_elim hcne separators e.data (Or.inl ⟨sep, hsep, hc⟩) hmemc

/-- Witness for C10: the token `AB` extracted from `AB + CD`. -/
theorem extracted_tokens_clean_witness :
    ("AB" : String) ∈ extract_compounds_from_expression ("AB + CD") ∧
      (pyStrip ("AB" : String).data = ("AB" : String).data ∧
        ∀ sep ∈ separators, ¬ (sep.data <:+: ("AB" : String).data)) :=
  ⟨by decide, extracted_tokens_clean ("AB + CD") ("AB") (by decide)⟩
